import Mathlib

/-!
Verification of the mongoose-lean-extension result-shaping layer.

The development shallowly embeds the lean-query post-processing pipeline:

* `src/util/stringifyPaths.js` (`applyStringifyAtPath` / `recurse`): the
  path rewriter that converts ObjectId values to hex strings at a
  dot-separated path, fanning out across arrays.
* the `mongooseLeanExtension` post find/findOne hook: the result
  post-processor that gates on lean options, applies `stringifyKeys`
  paths, removes integer `__v` fields, stringifies `_id` and optionally
  renames it, and signals exactly one continuation outcome.

JavaScript values flowing through the hook are modelled by the inductive
type `Value`; in-place mutation of the result graph is modelled by
returning the updated tree (query results are trees owned by one
invocation, so there is no observable aliasing).  Exceptions thrown inside
the hook body are modelled with an explicit error component so the
try/catch wrapper and the partially mutated graph at the failure point are
both visible.
-/

namespace MLE

/-- Model of the JavaScript values that appear in lean query results and
options: `undefined`, `null`, booleans, (integer) numbers, strings, BSON
ObjectId instances (carrying their 24-char hex form), plain objects as
ordered field lists, and arrays. -/
inductive Value where
  | vUndef : Value
  | vNull : Value
  | vBool : Bool → Value
  | vInt : Int → Value
  | vStr : String → Value
  | vOid : String → Value
  | vObj : List (String × Value) → Value
  | vArr : List Value → Value

/-- JavaScript truthiness: `undefined`, `null`, `false`, `0` and `""` are
falsy; every object (including ObjectId instances, plain objects, and
arrays, even empty ones) is truthy. -/
def truthy : Value → Bool
  | .vUndef => false
  | .vNull => false
  | .vBool b => b
  | .vInt n => !(n == 0)
  | .vStr s => !(s == "")
  | .vOid _ => true
  | .vObj _ => true
  | .vArr _ => true

/-- Whether a value is `null` or `undefined` (property access on such a
base throws). -/
def isNullish : Value → Bool
  | .vUndef => true
  | .vNull => true
  | _ => false

/-- JavaScript `typeof`. Note `typeof null` is `"object"`, and ObjectId
instances, plain objects and arrays are all `"object"`. -/
def jsTypeof : Value → String
  | .vUndef => "undefined"
  | .vNull => "object"
  | .vBool _ => "boolean"
  | .vInt _ => "number"
  | .vStr _ => "string"
  | .vOid _ => "object"
  | .vObj _ => "object"
  | .vArr _ => "object"

/-- Whether `v.toHexString` is a function: true exactly for ObjectId
instances (no other value in a lean result graph carries that method). -/
def hasToHexString : Value → Bool
  | .vOid _ => true
  | _ => false

/-- Whether `v instanceof mongoose.Types.ObjectId` holds. -/
def isObjectIdInstance : Value → Bool
  | .vOid _ => true
  | _ => false

/-- The hex string produced by `ObjectId.toHexString()` /
`ObjectId.toString()` (both return the 24-char hex form). -/
def oidHex : Value → String
  | .vOid h => h
  | _ => ""

/-- Own-property lookup on an ordered field list: the first field named
`k` wins (a JavaScript object never has duplicate keys). -/
def lookupField : List (String × Value) → String → Option Value
  | [], _ => none
  | (k1, v1) :: t, k => if k1 = k then some v1 else lookupField t k

/-- Property read `base[key]`: own-field lookup on plain objects;
`undefined` on every other base.  Used where the source reads a property
through `?.` or on a base already known to be non-nullish (reading a named
property of a primitive yields `undefined`; string index/length exotics
cannot satisfy the rewriter's ObjectId guard nor be mutated, so they are
not distinguished). -/
def getProp : Value → String → Value
  | .vObj fs, k => (lookupField fs k).getD .vUndef
  | _, _ => (.vUndef : Value)

/-- Assignment `obj[k] = v` on a field list: overwrites the first
occurrence of `k` in place (JavaScript keeps the original insertion
position) or appends a new field at the end. -/
def setFields : List (String × Value) → String → Value → List (String × Value)
  | [], k, v => [(k, v)]
  | (k1, v1) :: rest, k, v =>
      if k1 = k then (k, v) :: rest else (k1, v1) :: setFields rest k v

/-- Assignment `base[k] = v`: mutates plain objects; on primitives the
sloppy-mode assignment is a silent no-op (assignments on a nullish base,
which throw, are modelled explicitly at their call site). -/
def setProp : Value → String → Value → Value
  | .vObj fs, k, v => .vObj (setFields fs k v)
  | base, _, _ => base

/-- Effect of `delete obj[k]` on a field list: the field named `k` is
removed, every other field keeps its position. -/
def deleteFields : List (String × Value) → String → List (String × Value)
  | [], _ => []
  | (k1, v1) :: t, k => if k1 = k then deleteFields t k else (k1, v1) :: deleteFields t k

/-- `delete base[k]`: removes an own property of a plain object; on
primitives `delete` is a no-op returning true. -/
def deleteProp : Value → String → Value
  | .vObj fs, k => .vObj (deleteFields fs k)
  | base, _ => base

/-- `Number.isInteger(v)`: true only for integer-valued numbers, with no
coercion (strings, booleans, null, undefined, objects all give false). -/
def isIntegerNumber : Value → Bool
  | .vInt _ => true
  | _ => false

/-- The terminal step of the path rewriter: `if (current[key] && typeof
current[key] === "object" && typeof current[key].toHexString ===
"function") current[key] = current[key].toHexString();`
(src/util/stringifyPaths.js lines 23-32). -/
def stringifyTerminalKey (cur : Value) (key : String) : Value :=
  let fv := getProp cur key
  if truthy fv && (jsTypeof fv == "object") && hasToHexString fv then
    setProp cur key (.vStr (oidHex fv))
  else cur

mutual

/-- Embeds `recurse` from src/util/stringifyPaths.js.  A falsy current
value exits early; an array fans out the same remaining parts to every
element; with an empty part list the destructuring yields `key =
undefined`, i.e. property key `"undefined"`; the last part triggers the
terminal ObjectId conversion; otherwise traversal descends into
`current[key]` (a no-op when the field is missing or the base is not a
plain object, since nothing can be mutated there). -/
def recurse (current : Value) (remainingParts : List String) : Value :=
  if truthy current = false then current
  else
    match current, remainingParts with
    | .vArr items, parts => .vArr (recurseAll items parts)
    | cur, [] => stringifyTerminalKey cur "undefined"
    | cur, [key] => stringifyTerminalKey cur key
    | .vObj fs, key :: rest => .vObj (recurseField fs key rest)
    | cur, _ :: _ => cur
termination_by structural current

/-- The array fan-out loop: `for (const item of current)
recurse(item, remainingParts)`. -/
def recurseAll (items : List Value) (parts : List String) : List Value :=
  match items with
  | [] => []
  | x :: rest => recurse x parts :: recurseAll rest parts
termination_by structural items

/-- In-place mutation `recurse(current[key], rest)` seen from the owning
object: only the first field named `key` has its value rewritten. -/
def recurseField (fs : List (String × Value)) (key : String) (rest : List String) :
    List (String × Value) :=
  match fs with
  | [] => []
  | (k1, v1) :: t =>
      if k1 = key then (k1, recurse v1 rest) :: t
      else (k1, v1) :: recurseField t key rest
termination_by structural fs

end

/-- Accumulating helper for `jsSplitDot`. -/
def splitDotAux : List Char → List Char → List String
  | [], acc => [String.mk acc.reverse]
  | c :: rest, acc =>
      if c = '.' then String.mk acc.reverse :: splitDotAux rest []
      else splitDotAux rest (c :: acc)

/-- JavaScript `path.split(".")`: splits at every dot, keeping empty
segments, and returns `[""]` on the empty string (the result is never
empty). -/
def jsSplitDot (s : String) : List String :=
  splitDotAux s.data []

/-- Embeds `applyStringifyAtPath` from src/util/stringifyPaths.js: split
the dot-separated path and run the recursive rewriter from the root.
It is a total function (never raises). -/
def applyStringifyAtPath (obj : Value) (path : String) : Value :=
  recurse obj (jsSplitDot path)

/-!
The Result Post-Processor: the post find/findOne hook installed by
`mongooseLeanExtension(schema)`.  The hook body runs inside a try/catch
whose catch calls `next(error)`; steps that can throw are therefore
modelled as returning the value reached so far together with an optional
error (the thrown exception), so the partially mutated graph at a failure
point stays visible.
-/

/-- The continuation of the post hook: exactly one of `next()` (with the
caller-visible result graph) or `next(error)` (with the error and the
graph as mutated up to the failure point) is signalled. -/
inductive Outcome where
  | continueSuccess : Value → Outcome
  | continueError : String → Value → Outcome

/-- Destructuring with a default, e.g. `const { stringifyKeys = [] } =
options.lean`: the default applies exactly when the property is absent or
explicitly `undefined`. -/
def destructureD (o : Value) (k : String) (d : Value) : Value :=
  match getProp o k with
  | .vUndef => d
  | v => v

/-- `Array.isArray`. -/
def isArrayVal : Value → Bool
  | .vArr _ => true
  | _ => false

/-- The element list of an array value. -/
def arrElems : Value → List Value
  | .vArr xs => xs
  | _ => []

/-- `applyStringifyAtPath(doc, path)` where `path` is an arbitrary option
value: a non-string path throws (`path.split is not a function`) before
mutating anything; a string path never throws. -/
def applyPathDyn (doc : Value) (path : Value) : Value × Option String :=
  match path with
  | .vStr s => (applyStringifyAtPath doc s, none)
  | _ => (doc, some "TypeError: path.split is not a function")

/-- The inner loop `for (const path of stringifyKeys)
applyStringifyAtPath(doc, path)`: paths are applied left to right; a
throwing path aborts the loop, keeping the mutations already made to the
document. -/
def applyPathsTo : Value → List Value → Value × Option String
  | doc, [] => (doc, none)
  | doc, p :: rest =>
      match applyPathDyn doc p with
      | (d, none) => applyPathsTo d rest
      | (d, some e) => (d, some e)

/-- A `forEach`-style loop of a possibly-throwing per-record mutation: on
the first thrown error the loop aborts, keeping the records already
processed, the failing record as far as it got, and the remaining records
untouched. -/
def forEachMut (f : Value → Value × Option String) : List Value → List Value × Option String
  | [] => ([], none)
  | d :: rest =>
      match f d with
      | (d1, none) =>
          match forEachMut f rest with
          | (rest1, e) => (d1 :: rest1, e)
      | (d1, some e) => (d1 :: rest, some e)

/-- Step 3 of the hook: if `stringifyKeys` is a non-empty array, apply
every path to every document of the normalized sequence; otherwise leave
the documents untouched. -/
def stringifyPhase (stringifyKeys : Value) (docs : List Value) : List Value × Option String :=
  if isArrayVal stringifyKeys && !(arrElems stringifyKeys).isEmpty then
    forEachMut (fun d => applyPathsTo d (arrElems stringifyKeys)) docs
  else (docs, none)

/-- One iteration of the deversion loop (part_001 lines 38-41, and the
same loop in src/plugins/deversion.js): `if (Number.isInteger(record?.__v))
delete record.__v`.  This never throws. -/
def deversionRecord (record : Value) : Value :=
  if isIntegerNumber (getProp record "__v") then deleteProp record "__v" else record

/-- Step 4 of the hook: when `showVersion` is falsy, strip integer `__v`
fields from every record; when truthy, leave the records untouched. -/
def deversionPhase (showVersion : Value) (docs : List Value) : List Value :=
  if truthy showVersion then docs else docs.map deversionRecord

/-- The `_id` stringification substep of step 5: `const id = record?._id;
if (id && id instanceof mongoose.Types.ObjectId) record._id =
id.toString();`.  This never throws. -/
def idStringifyRecord (record : Value) : Value :=
  let id := getProp record "_id"
  if truthy id && isObjectIdInstance id then setProp record "_id" (.vStr (oidHex id))
  else record

mutual

/-- JavaScript ToString as used for the computed property key
`record[rename]`: elements of arrays are joined with commas, with nullish
elements rendered empty. -/
def jsToString (v : Value) : String :=
  match v with
  | .vUndef => "undefined"
  | .vNull => "null"
  | .vBool true => "true"
  | .vBool false => "false"
  | .vInt n => toString n
  | .vStr s => s
  | .vOid h => h
  | .vObj _ => "[object Object]"
  | .vArr xs => String.intercalate "," (jsToStringElems xs)
termination_by structural v

/-- Array elements under ToString: nullish elements become empty strings. -/
def jsToStringElems (vs : List Value) : List String :=
  match vs with
  | [] => []
  | .vUndef :: rest => "" :: jsToStringElems rest
  | .vNull :: rest => "" :: jsToStringElems rest
  | v :: rest => jsToString v :: jsToStringElems rest
termination_by structural vs

end

/-- One iteration of the stringify-or-rename loop of step 5 (part_001
lines 45-56): stringify an ObjectId `_id`, then, when `rename` is truthy,
move `record._id` (possibly `undefined`) to the field named by `rename`
and delete `_id`.  `record[rename] = record._id` throws on a nullish
record; on other non-objects the sloppy-mode assignment and delete are
silent no-ops. -/
def idRenameRecord (rename : Value) (record : Value) : Value × Option String :=
  let r1 := idStringifyRecord record
  if truthy rename then
    if isNullish r1 then
      (r1, some "TypeError: cannot read properties of null or undefined")
    else
      (deleteProp (setProp r1 (jsToString rename) (getProp r1 "_id")) "_id", none)
  else (r1, none)

/-- Step 5 of the hook: runs only when `stringifyId` or `rename` is
truthy. -/
def idRenamePhase (stringifyId rename : Value) (docs : List Value) :
    List Value × Option String :=
  if truthy stringifyId || truthy rename then forEachMut (idRenameRecord rename) docs
  else (docs, none)

/-- The normalized document sequence: `Array.isArray(result) ? result :
[result]`. -/
def toDocs : Value → List Value
  | .vArr xs => xs
  | r => [r]

/-- The caller-visible result graph after the hook ran: a find() caller
still holds the (mutated) array, a findOne() caller still holds the single
(mutated) record — the hook only rebinds its local `result` variable when
it wraps a singular result, so the wrapping is never delivered. -/
def rebuild (isArr : Bool) (docs : List Value) : Value :=
  if isArr then .vArr docs else docs.headD (.vUndef : Value)

/-- Embeds the post find/findOne hook of `mongooseLeanExtension`
(src/unnamed/part_001): `options` models `this?._mongooseOptions ??
this?.getOptions()` and `result` the raw query result.  The gate
short-circuits unless a truthy `lean` option is present and the result is
truthy; then the four option fields are destructured with their defaults
and the three rewrite phases run in order, any thrown exception being
caught and signalled through `next(error)`. -/
def mongooseLeanExtension (options result : Value) : Outcome :=
  if !truthy (getProp options "lean") || !truthy result then .continueSuccess result
  else
    let lean := getProp options "lean"
    let isArr := isArrayVal result
    match stringifyPhase (destructureD lean "stringifyKeys" (.vArr [])) (toDocs result) with
    | (docs1, some e) => .continueError e (rebuild isArr docs1)
    | (docs1, none) =>
        let docs2 := deversionPhase (destructureD lean "showVersion" (.vBool false)) docs1
        match idRenamePhase (destructureD lean "stringifyId" (.vBool true))
            (getProp lean "rename") docs2 with
        | (docs3, some e) => .continueError e (rebuild isArr docs3)
        | (docs3, none) => .continueSuccess (rebuild isArr docs3)

/-- Spec-side description of the effect of a terminal path segment on one
field list: an ObjectId-valued field is replaced in place by its hex
string; any other field list is unchanged. -/
def stringifyOidField (gs : List (String × Value)) (key : String) : List (String × Value) :=
  match lookupField gs key with
  | some (.vOid h) => setFields gs key (.vStr h)
  | _ => gs

/-! ### Field-list algebra -/

theorem lookup_setFields_self (fs : List (String × Value)) (k : String) (v : Value) :
    lookupField (setFields fs k v) k = some v := by
  induction fs with
  | nil => simp [setFields, lookupField]
  | cons p t ih =>
      obtain ⟨k1, v1⟩ := p
      by_cases h : k1 = k
      · simp [setFields, h, lookupField]
      · simp [setFields, h, lookupField, ih, beq_iff_eq, Ne.symm h]

theorem lookup_setFields_ne (fs : List (String × Value)) (k k1 : String) (v : Value)
    (h : k1 ≠ k) : lookupField (setFields fs k v) k1 = lookupField fs k1 := by
  induction fs with
  | nil => simp [setFields, lookupField, Ne.symm h]
  | cons p t ih =>
      obtain ⟨k2, v2⟩ := p
      by_cases h2 : k2 = k
      · subst h2
        simp [setFields, lookupField, Ne.symm h]
      · simp only [setFields, if_neg h2, lookupField, ih]

theorem setFields_same (fs : List (String × Value)) (k : String) (v : Value)
    (h : lookupField fs k = some v) : setFields fs k v = fs := by
  induction fs with
  | nil => simp [lookupField] at h
  | cons p t ih =>
      obtain ⟨k1, v1⟩ := p
      by_cases h1 : k1 = k
      · subst h1
        simp [lookupField] at h
        simp [setFields, h]
      · simp [lookupField, beq_iff_eq, h1] at h
        simp [setFields, h1, ih h]

theorem setFields_setFields (fs : List (String × Value)) (k : String) (a b : Value) :
    setFields (setFields fs k a) k b = setFields fs k b := by
  induction fs with
  | nil => simp [setFields]
  | cons p t ih =>
      obtain ⟨k1, v1⟩ := p
      by_cases h : k1 = k
      · simp [setFields, h]
      · simp [setFields, h, ih]

theorem setFields_comm (fs : List (String × Value)) (k l : String) (a b : Value)
    (h : k ≠ l) (hk : (lookupField fs k).isSome) (hl : (lookupField fs l).isSome) :
    setFields (setFields fs k a) l b = setFields (setFields fs l b) k a := by
  induction fs with
  | nil => simp [lookupField] at hk
  | cons p t ih =>
      obtain ⟨k1, v1⟩ := p
      by_cases hk1 : k1 = k
      · subst hk1
        simp [setFields, Ne.symm h, h]
      · by_cases hl1 : k1 = l
        · subst hl1
          simp [setFields, h, hk1]
        · simp only [lookupField, if_neg hk1] at hk
          simp only [lookupField, if_neg hl1] at hl
          simp [setFields, hk1, hl1, ih hk hl]

theorem lookup_deleteFields_self (fs : List (String × Value)) (k : String) :
    lookupField (deleteFields fs k) k = none := by
  induction fs with
  | nil => simp [deleteFields, lookupField]
  | cons p t ih =>
      obtain ⟨k1, v1⟩ := p
      by_cases h : k1 = k
      · simpa [deleteFields, h] using ih
      · simpa [deleteFields, lookupField, h] using ih

theorem lookup_deleteFields_ne (fs : List (String × Value)) (k k1 : String)
    (h : k1 ≠ k) : lookupField (deleteFields fs k) k1 = lookupField fs k1 := by
  induction fs with
  | nil => simp [deleteFields, lookupField]
  | cons p t ih =>
      obtain ⟨k2, v2⟩ := p
      by_cases h2 : k2 = k
      · subst h2
        simpa [deleteFields, lookupField, Ne.symm h] using ih
      · by_cases h3 : k2 = k1
        · subst h3
          simp [deleteFields, lookupField, h2]
        · simpa [deleteFields, lookupField, h2, h3] using ih

/-! ### Path rewriter characterizations -/

theorem recurseAll_eq_map (items : List Value) (parts : List String) :
    recurseAll items parts = items.map (fun it => recurse it parts) := by
  induction items with
  | nil => simp [recurseAll]
  | cons x t ih => simp [recurseAll, ih]

theorem recurse_arr (items : List Value) (parts : List String) :
    recurse (.vArr items) parts = .vArr (items.map (fun it => recurse it parts)) := by
  rw [recurse.eq_def]
  simp [truthy, recurseAll_eq_map]

theorem recurse_falsy (cur : Value) (parts : List String) (h : truthy cur = false) :
    recurse cur parts = cur := by
  rw [recurse.eq_def, h]
  simp

theorem recurse_obj_terminal (fs : List (String × Value)) (key : String) :
    recurse (.vObj fs) [key] = stringifyTerminalKey (.vObj fs) key := by
  rw [recurse.eq_def]
  simp [truthy]

theorem recurse_obj_nilparts (fs : List (String × Value)) :
    recurse (.vObj fs) [] = stringifyTerminalKey (.vObj fs) "undefined" := by
  rw [recurse.eq_def]
  simp [truthy]

theorem recurse_obj_descend (fs : List (String × Value)) (key p : String)
    (ps : List String) :
    recurse (.vObj fs) (key :: p :: ps) = .vObj (recurseField fs key (p :: ps)) := by
  rw [recurse.eq_def]
  simp [truthy]

theorem recurse_inert (cur : Value) (parts : List String)
    (hobj : ∀ gs, cur ≠ .vObj gs) (harr : ∀ xs, cur ≠ .vArr xs) :
    recurse cur parts = cur := by
  cases cur with
  | vObj gs => exact absurd rfl (hobj gs)
  | vArr xs => exact absurd rfl (harr xs)
  | vUndef => exact recurse_falsy _ _ rfl
  | vNull => exact recurse_falsy _ _ rfl
  | vBool b =>
      cases b with
      | false => exact recurse_falsy _ _ rfl
      | true =>
          rw [recurse.eq_def]
          cases parts with
          | nil => simp [truthy, stringifyTerminalKey, getProp, truthy]
          | cons p ps =>
              cases ps <;> simp [truthy, stringifyTerminalKey, getProp]
  | vInt n =>
      rw [recurse.eq_def]
      cases parts with
      | nil => simp [truthy, stringifyTerminalKey, getProp]
      | cons p ps =>
          cases ps <;> simp [truthy, stringifyTerminalKey, getProp]
  | vStr s =>
      rw [recurse.eq_def]
      cases parts with
      | nil => simp [truthy, stringifyTerminalKey, getProp]
      | cons p ps =>
          cases ps <;> simp [truthy, stringifyTerminalKey, getProp]
  | vOid h =>
      rw [recurse.eq_def]
      cases parts with
      | nil => simp [truthy, stringifyTerminalKey, getProp]
      | cons p ps =>
          cases ps <;> simp [truthy, stringifyTerminalKey, getProp]

theorem stringifyTerminalKey_obj (gs : List (String × Value)) (key : String) :
    stringifyTerminalKey (.vObj gs) key = .vObj (stringifyOidField gs key) := by
  unfold stringifyTerminalKey stringifyOidField
  rcases h : lookupField gs key with _ | v
  · simp [getProp, h, truthy]
  · cases v <;> simp [getProp, h, truthy, jsTypeof, hasToHexString, oidHex, setProp]

theorem recurseField_lookup_none (fs : List (String × Value)) (key : String)
    (rest : List String) (h : lookupField fs key = none) : recurseField fs key rest = fs := by
  induction fs with
  | nil => simp [recurseField]
  | cons p t ih =>
      obtain ⟨k1, v1⟩ := p
      by_cases h1 : k1 = key
      · subst h1
        simp [lookupField] at h
      · simp [lookupField, beq_iff_eq, h1] at h
        simp [recurseField, h1, ih h]

theorem recurseField_lookup_some (fs : List (String × Value)) (key : String)
    (rest : List String) (v : Value) (h : lookupField fs key = some v) :
    recurseField fs key rest = setFields fs key (recurse v rest) := by
  induction fs with
  | nil => simp [lookupField] at h
  | cons p t ih =>
      obtain ⟨k1, v1⟩ := p
      by_cases h1 : k1 = key
      · subst h1
        simp [lookupField] at h
        subst h
        simp [recurseField, setFields]
      · simp [lookupField, beq_iff_eq, h1] at h
        simp [recurseField, setFields, h1, ih h]

theorem recurse_obj_terminal_eq (fs : List (String × Value)) (key : String) :
    recurse (.vObj fs) [key] = .vObj (stringifyOidField fs key) := by
  rw [recurse_obj_terminal, stringifyTerminalKey_obj]

theorem recurse_obj_nil_eq (fs : List (String × Value)) :
    recurse (.vObj fs) [] = .vObj (stringifyOidField fs "undefined") := by
  rw [recurse_obj_nilparts, stringifyTerminalKey_obj]

theorem recurse_obj_shape (fs : List (String × Value)) (parts : List String) :
    ∃ gs, recurse (.vObj fs) parts = .vObj gs := by
  match parts with
  | [] => exact ⟨_, recurse_obj_nil_eq fs⟩
  | [key] => exact ⟨_, recurse_obj_terminal_eq fs key⟩
  | key :: p :: ps => exact ⟨_, recurse_obj_descend fs key p ps⟩

theorem hasToHexString_recurse (v : Value) (parts : List String) :
    hasToHexString (recurse v parts) = hasToHexString v := by
  cases v with
  | vObj fs =>
      obtain ⟨gs, hgs⟩ := recurse_obj_shape fs parts
      rw [hgs]
      rfl
  | vArr xs =>
      rw [recurse_arr]
      rfl
  | vUndef => rw [recurse_inert] <;> intros <;> simp
  | vNull => rw [recurse_inert] <;> intros <;> simp
  | vBool b => rw [recurse_inert] <;> intros <;> simp
  | vInt n => rw [recurse_inert] <;> intros <;> simp
  | vStr s => rw [recurse_inert] <;> intros <;> simp
  | vOid h => rw [recurse_inert] <;> intros <;> simp

theorem stringifyOidField_of_none (fs : List (String × Value)) (k : String)
    (h : lookupField fs k = none) : stringifyOidField fs k = fs := by
  simp [stringifyOidField, h]

theorem stringifyOidField_of_oid (fs : List (String × Value)) (k hex : String)
    (h : lookupField fs k = some (.vOid hex)) :
    stringifyOidField fs k = setFields fs k (.vStr hex) := by
  simp [stringifyOidField, h]

theorem stringifyOidField_of_not_oid (fs : List (String × Value)) (k : String)
    (w : Value) (h : lookupField fs k = some w) (hw : hasToHexString w = false) :
    stringifyOidField fs k = fs := by
  cases w <;> simp_all [stringifyOidField, hasToHexString]

theorem lookup_stringifyOidField_ne (fs : List (String × Value)) (k k1 : String)
    (h : k1 ≠ k) : lookupField (stringifyOidField fs k) k1 = lookupField fs k1 := by
  unfold stringifyOidField
  rcases hl : lookupField fs k with _ | w
  · rfl
  · cases w <;> first
      | rfl
      | exact lookup_setFields_ne fs k k1 _ h

theorem sizeOf_lookupField_lt (fs : List (String × Value)) (k : String) (v : Value)
    (h : lookupField fs k = some v) : sizeOf v < sizeOf fs := by
  induction fs with
  | nil => simp [lookupField] at h
  | cons p t ih =>
      obtain ⟨k1, v1⟩ := p
      by_cases h1 : k1 = k
      · simp [lookupField, h1] at h
        subst h
        simp only [List.cons.sizeOf_spec, Prod.mk.sizeOf_spec]
        omega
      · simp [lookupField, h1] at h
        have := ih h
        simp only [List.cons.sizeOf_spec, Prod.mk.sizeOf_spec]
        omega

/-! ### A uniform view of one traversal step on an object

On a plain object, one application of `recurse` touches exactly one field
(the first path segment) and transforms its value: a terminal segment
applies the ObjectId-to-string conversion, a non-terminal segment applies
`recurse` with the remaining segments.  `mapField` captures this common
shape. -/

/-- Transform the value of field `k` in place, if the field exists. -/
def mapField (fs : List (String × Value)) (k : String) (f : Value → Value) :
    List (String × Value) :=
  match lookupField fs k with
  | some v => setFields fs k (f v)
  | none => fs

/-- The value transformation of a terminal path segment: ObjectId values
become their hex string, everything else is untouched. -/
def oidToString (v : Value) : Value :=
  if hasToHexString v then .vStr (oidHex v) else v

/-- The field touched by a part list on an object (destructuring an empty
list yields the property key "undefined"). -/
def pKey : List String → String
  | [] => "undefined"
  | k :: _ => k

/-- The value transformation a part list applies to that field. -/
def pAct : List String → Value → Value
  | [], v => oidToString v
  | [_], v => oidToString v
  | _ :: p :: ps, v => recurse v (p :: ps)

theorem stringifyOidField_eq_mapField (fs : List (String × Value)) (k : String) :
    stringifyOidField fs k = mapField fs k oidToString := by
  unfold stringifyOidField mapField oidToString
  rcases h : lookupField fs k with _ | v
  · rfl
  · cases v <;> simp [hasToHexString, oidHex, setFields_same fs k _ h]

theorem recurseField_eq_mapField (fs : List (String × Value)) (k : String)
    (rest : List String) :
    recurseField fs k rest = mapField fs k (fun v => recurse v rest) := by
  unfold mapField
  rcases h : lookupField fs k with _ | v
  · exact recurseField_lookup_none fs k rest h
  · exact recurseField_lookup_some fs k rest v h

theorem recurse_obj_mapField (fs : List (String × Value)) (parts : List String) :
    recurse (.vObj fs) parts = .vObj (mapField fs (pKey parts) (pAct parts)) := by
  match parts with
  | [] =>
      rw [recurse_obj_nil_eq, stringifyOidField_eq_mapField]
      rfl
  | [key] =>
      rw [recurse_obj_terminal_eq, stringifyOidField_eq_mapField]
      rfl
  | key :: p :: ps =>
      rw [recurse_obj_descend, recurseField_eq_mapField]
      rfl

theorem mapField_of_none (fs : List (String × Value)) (k : String) (f : Value → Value)
    (h : lookupField fs k = none) : mapField fs k f = fs := by
  unfold mapField
  rw [h]

theorem mapField_of_some (fs : List (String × Value)) (k : String) (f : Value → Value)
    (v : Value) (h : lookupField fs k = some v) :
    mapField fs k f = setFields fs k (f v) := by
  unfold mapField
  rw [h]

theorem mapField_comm (fs : List (String × Value)) (k l : String)
    (f g : Value → Value) (h : k ≠ l) :
    mapField (mapField fs k f) l g = mapField (mapField fs l g) k f := by
  rcases hk : lookupField fs k with _ | v
  · rcases hl : lookupField fs l with _ | w
    · simp only [mapField_of_none fs k f hk, mapField_of_none fs l g hl]
    · simp only [mapField_of_none fs k f hk, mapField_of_some fs l g w hl,
        mapField_of_none (setFields fs l (g w)) k f
          (by rw [lookup_setFields_ne fs l k (g w) h]; exact hk)]
  · rcases hl : lookupField fs l with _ | w
    · simp only [mapField_of_some fs k f v hk, mapField_of_none fs l g hl,
        mapField_of_none (setFields fs k (f v)) l g
          (by rw [lookup_setFields_ne fs k l (f v) (Ne.symm h)]; exact hl)]
    · simp only [mapField_of_some fs k f v hk, mapField_of_some fs l g w hl,
        mapField_of_some (setFields fs k (f v)) l g w
          (by rw [lookup_setFields_ne fs k l (f v) (Ne.symm h)]; exact hl),
        mapField_of_some (setFields fs l (g w)) k f v
          (by rw [lookup_setFields_ne fs l k (g w) h]; exact hk)]
      exact setFields_comm fs k l (f v) (g w) h
        (by rw [hk]; rfl) (by rw [hl]; rfl)

theorem mapField_mapField (fs : List (String × Value)) (k : String)
    (f g : Value → Value) :
    mapField (mapField fs k f) k g = mapField fs k (fun v => g (f v)) := by
  rcases hk : lookupField fs k with _ | v
  · simp only [mapField_of_none fs k f hk, mapField_of_none fs k g hk,
      mapField_of_none fs k (fun v => g (f v)) hk]
  · simp only [mapField_of_some fs k f v hk,
      mapField_of_some (setFields fs k (f v)) k g (f v) (lookup_setFields_self fs k (f v)),
      setFields_setFields, mapField_of_some fs k (fun v => g (f v)) v hk]

theorem recurse_vUndef (ps : List String) : recurse .vUndef ps = .vUndef :=
  recurse_falsy _ _ rfl

theorem recurse_vNull (ps : List String) : recurse .vNull ps = .vNull :=
  recurse_falsy _ _ rfl

theorem recurse_vBool (b : Bool) (ps : List String) : recurse (.vBool b) ps = .vBool b := by
  rw [recurse_inert] <;> intros <;> simp

theorem recurse_vInt (n : Int) (ps : List String) : recurse (.vInt n) ps = .vInt n := by
  rw [recurse_inert] <;> intros <;> simp

theorem recurse_vStr (s : String) (ps : List String) : recurse (.vStr s) ps = .vStr s := by
  rw [recurse_inert] <;> intros <;> simp

theorem recurse_vOid (hex : String) (ps : List String) :
    recurse (.vOid hex) ps = .vOid hex := by
  rw [recurse_inert] <;> intros <;> simp

theorem recurse_oidToString_comm (v : Value) (parts : List String) :
    recurse (oidToString v) parts = oidToString (recurse v parts) := by
  cases v with
  | vOid hex =>
      have h1 : oidToString (.vOid hex) = .vStr hex := rfl
      rw [h1, recurse_vStr, recurse_vOid, h1]
  | vObj fs =>
      obtain ⟨gs, hgs⟩ := recurse_obj_shape fs parts
      rw [show oidToString (.vObj fs) = .vObj fs from rfl, hgs]
      rfl
  | vArr xs =>
      rw [show oidToString (.vArr xs) = .vArr xs from rfl, recurse_arr]
      rfl
  | vUndef =>
      rw [show oidToString .vUndef = .vUndef from rfl, recurse_vUndef]
      rfl
  | vNull =>
      rw [show oidToString .vNull = .vNull from rfl, recurse_vNull]
      rfl
  | vBool b =>
      rw [show oidToString (.vBool b) = .vBool b from rfl, recurse_vBool]
      rfl
  | vInt n =>
      rw [show oidToString (.vInt n) = .vInt n from rfl, recurse_vInt]
      rfl
  | vStr s =>
      rw [show oidToString (.vStr s) = .vStr s from rfl, recurse_vStr]
      rfl

theorem oidToString_idem (v : Value) : oidToString (oidToString v) = oidToString v := by
  cases v <;> rfl

theorem pAct_comm (v : Value)
    (hIH : ∀ a b : List String, recurse (recurse v a) b = recurse (recurse v b) a)
    (p q : List String) : pAct p (pAct q v) = pAct q (pAct p v) := by
  match p, q with
  | [], [] => rfl
  | [], [k] => rfl
  | [k], [] => rfl
  | [k], [l] => rfl
  | [], l :: b :: bs => exact (recurse_oidToString_comm v (b :: bs)).symm
  | [k], l :: b :: bs => exact (recurse_oidToString_comm v (b :: bs)).symm
  | k :: a :: as1, [] => exact recurse_oidToString_comm v (a :: as1)
  | k :: a :: as1, [l] => exact recurse_oidToString_comm v (a :: as1)
  | k :: a :: as1, l :: b :: bs => exact hIH (b :: bs) (a :: as1)

theorem pAct_idem (v : Value)
    (hIH : ∀ a : List String, recurse (recurse v a) a = recurse v a)
    (p : List String) : pAct p (pAct p v) = pAct p v := by
  match p with
  | [] => exact oidToString_idem v
  | [k] => exact oidToString_idem v
  | k :: a :: as1 => exact hIH (a :: as1)

theorem sizeOf_value_pos (r : Value) : 0 < sizeOf r := by
  cases r <;> simp_arith

/-- Two path rewrites commute: the rewriter only ever replaces an existing
ObjectId leaf by its hex string in place, and whether a later traversal
step fires is unaffected by such a replacement. -/
theorem recurse_comm_sized :
    ∀ n : Nat, ∀ r : Value, sizeOf r ≤ n →
      ∀ p q : List String, recurse (recurse r p) q = recurse (recurse r q) p := by
  intro n
  induction n with
  | zero =>
      intro r hr
      have := sizeOf_value_pos r
      omega
  | succ n ih =>
      intro r hr p q
      cases r with
      | vArr items =>
          rw [recurse_arr, recurse_arr, recurse_arr, recurse_arr,
            List.map_map, List.map_map]
          congr 1
          apply List.map_congr_left
          intro x hx
          have hlt : sizeOf x < sizeOf items := List.sizeOf_lt_of_mem hx
          have hsz : sizeOf (Value.vArr items) = 1 + sizeOf items := by simp_arith
          simp only [Function.comp]
          exact ih x (by omega) p q
      | vObj fs =>
          rw [recurse_obj_mapField fs p, recurse_obj_mapField fs q,
            recurse_obj_mapField, recurse_obj_mapField]
          congr 1
          by_cases hk : pKey q = pKey p
          · rw [hk, mapField_mapField, mapField_mapField]
            rcases hl : lookupField fs (pKey p) with _ | v
            · rw [mapField_of_none fs (pKey p) _ hl, mapField_of_none fs (pKey p) _ hl]
            · rw [mapField_of_some fs (pKey p) _ v hl, mapField_of_some fs (pKey p) _ v hl]
              congr 1
              apply pAct_comm
              intro a b
              apply ih
              have h1 : sizeOf v < sizeOf fs := sizeOf_lookupField_lt fs _ v hl
              have h2 : sizeOf (Value.vObj fs) = 1 + sizeOf fs := by simp_arith
              omega
          · exact mapField_comm fs (pKey p) (pKey q) (pAct p) (pAct q) (Ne.symm hk)
      | vUndef => simp only [recurse_vUndef]
      | vNull => simp only [recurse_vNull]
      | vBool b => simp only [recurse_vBool]
      | vInt m => simp only [recurse_vInt]
      | vStr s => simp only [recurse_vStr]
      | vOid hx => simp only [recurse_vOid]

/-- A second application of the same path rewrite is a no-op: the first
pass replaces the addressed ObjectId leaves by strings, which the second
pass leaves untouched. -/
theorem recurse_idem_sized :
    ∀ n : Nat, ∀ r : Value, sizeOf r ≤ n →
      ∀ p : List String, recurse (recurse r p) p = recurse r p := by
  intro n
  induction n with
  | zero =>
      intro r hr
      have := sizeOf_value_pos r
      omega
  | succ n ih =>
      intro r hr p
      cases r with
      | vArr items =>
          rw [recurse_arr, recurse_arr, List.map_map]
          congr 1
          apply List.map_congr_left
          intro x hx
          have hlt : sizeOf x < sizeOf items := List.sizeOf_lt_of_mem hx
          have hsz : sizeOf (Value.vArr items) = 1 + sizeOf items := by simp_arith
          simp only [Function.comp]
          exact ih x (by omega) p
      | vObj fs =>
          rw [recurse_obj_mapField fs p, recurse_obj_mapField, mapField_mapField]
          congr 1
          rcases hl : lookupField fs (pKey p) with _ | v
          · rw [mapField_of_none fs (pKey p) _ hl, mapField_of_none fs (pKey p) _ hl]
          · rw [mapField_of_some fs (pKey p) _ v hl, mapField_of_some fs (pKey p) _ v hl]
            congr 1
            apply pAct_idem
            intro a
            apply ih
            have h1 : sizeOf v < sizeOf fs := sizeOf_lookupField_lt fs _ v hl
            have h2 : sizeOf (Value.vObj fs) = 1 + sizeOf fs := by simp_arith
            omega
      | vUndef => simp only [recurse_vUndef]
      | vNull => simp only [recurse_vNull]
      | vBool b => simp only [recurse_vBool]
      | vInt m => simp only [recurse_vInt]
      | vStr s => simp only [recurse_vStr]
      | vOid hx => simp only [recurse_vOid]

theorem recurse_comm (r : Value) (p q : List String) :
    recurse (recurse r p) q = recurse (recurse r q) p :=
  recurse_comm_sized (sizeOf r) r (Nat.le_refl _) p q

theorem recurse_idem (r : Value) (p : List String) :
    recurse (recurse r p) p = recurse r p :=
  recurse_idem_sized (sizeOf r) r (Nat.le_refl _) p

/-! ### Result post-processor lemmas -/

theorem forEachMut_eq_map (f : Value → Value × Option String) (docs : List Value)
    (h : ∀ d ∈ docs, (f d).2 = none) :
    forEachMut f docs = (docs.map (fun d => (f d).1), none) := by
  induction docs with
  | nil => rfl
  | cons d rest ih =>
      have hd : (f d).2 = none := h d (by simp)
      have hrest : forEachMut f rest = (rest.map (fun d => (f d).1), none) :=
        ih (fun x hx => h x (by simp [hx]))
      rcases hfd : f d with ⟨d1, e⟩
      rw [hfd] at hd
      simp only at hd
      subst hd
      simp [forEachMut, hfd, hrest]

theorem forEachMut_none_inv (f : Value → Value × Option String) (docs ys : List Value)
    (h : forEachMut f docs = (ys, none)) :
    ys = docs.map (fun d => (f d).1) ∧ ∀ d ∈ docs, (f d).2 = none := by
  induction docs generalizing ys with
  | nil =>
      simp [forEachMut] at h
      simp [h]
  | cons d rest ih =>
      unfold forEachMut at h
      rcases hfd : f d with ⟨d1, e⟩
      rw [hfd] at h
      cases e with
      | none =>
          rcases hrest : forEachMut f rest with ⟨rest1, e1⟩
          rw [hrest] at h
          simp only [Prod.mk.injEq] at h
          obtain ⟨hys, he1⟩ := h
          subst he1
          obtain ⟨hmap, hall⟩ := ih rest1 hrest
          constructor
          · rw [← hys, hmap]
            simp [hfd]
          · intro x hx
            rcases List.mem_cons.mp hx with hx1 | hx1
            · rw [hx1, hfd]
            · exact hall x hx1
      | some e0 => simp at h

theorem stringifyPhase_not_array (keys : Value) (docs : List Value)
    (h : isArrayVal keys = false) : stringifyPhase keys docs = (docs, none) := by
  simp [stringifyPhase, h]

theorem stringifyPhase_empty (docs : List Value) :
    stringifyPhase (.vArr []) docs = (docs, none) := by
  simp [stringifyPhase, arrElems]

theorem idStringifyRecord_obj (fs : List (String × Value)) :
    idStringifyRecord (.vObj fs) = .vObj (stringifyOidField fs "_id") := by
  unfold idStringifyRecord
  rcases hl : lookupField fs "_id" with _ | v
  · simp [getProp, hl, truthy, stringifyOidField]
  · cases v <;>
      simp [getProp, hl, truthy, isObjectIdInstance, oidHex, setProp, stringifyOidField]

theorem idStringifyRecord_not_obj (r : Value) (h : ∀ fs, r ≠ .vObj fs) :
    idStringifyRecord r = r := by
  cases r with
  | vObj fs => exact absurd rfl (h fs)
  | vUndef => rfl
  | vNull => rfl
  | vBool b => rfl
  | vInt n => rfl
  | vStr s => rfl
  | vOid hx => rfl
  | vArr xs => rfl

theorem deversionRecord_int (fs : List (String × Value)) (n : Int)
    (h : lookupField fs "__v" = some (.vInt n)) :
    deversionRecord (.vObj fs) = .vObj (deleteFields fs "__v") := by
  simp [deversionRecord, getProp, h, isIntegerNumber, deleteProp]

theorem deversionRecord_not_int (r : Value)
    (h : isIntegerNumber (getProp r "__v") = false) : deversionRecord r = r := by
  simp [deversionRecord, h]

theorem deversionRecord_obj_shape (fs : List (String × Value)) :
    ∃ gs, deversionRecord (.vObj fs) = .vObj gs ∧
      ∀ k, k ≠ "__v" → lookupField gs k = lookupField fs k := by
  by_cases h : isIntegerNumber (getProp (.vObj fs) "__v") = true
  · refine ⟨deleteFields fs "__v", ?_, ?_⟩
    · simp [deversionRecord, h, deleteProp]
    · intro k hk
      exact lookup_deleteFields_ne fs "__v" k hk
  · rw [Bool.not_eq_true] at h
    exact ⟨fs, deversionRecord_not_int _ h, fun k _ => rfl⟩

theorem truthy_vStr (nm : String) (h : nm ≠ "") : truthy (.vStr nm) = true := by
  simp [truthy, h]

theorem idRenameRecord_obj_str (fs : List (String × Value)) (nm : String)
    (hne : nm ≠ "") :
    idRenameRecord (.vStr nm) (.vObj fs) =
      (.vObj (deleteFields (setFields (stringifyOidField fs "_id") nm
          ((lookupField (stringifyOidField fs "_id") "_id").getD .vUndef)) "_id"), none) := by
  unfold idRenameRecord
  rw [idStringifyRecord_obj, truthy_vStr nm hne]
  simp [isNullish, getProp, setProp, deleteProp, jsToString]

theorem idRenameRecord_no_rename (rename record : Value) (h : truthy rename = false) :
    idRenameRecord rename record = (idStringifyRecord record, none) := by
  simp [idRenameRecord, h]

theorem rebuild_single (d : Value) : rebuild false [d] = d := rfl

/-- Unfolding of the hook on a truthy single-record result whose
`stringifyKeys` phase is a no-op. -/
theorem mle_single_noKeys (options : Value) (fs : List (String × Value)) (L : Value)
    (hL : getProp options "lean" = L) (htr : truthy L = true)
    (hkeys : stringifyPhase (destructureD L "stringifyKeys" (.vArr [])) [.vObj fs]
      = ([.vObj fs], none)) :
    mongooseLeanExtension options (.vObj fs) =
      match idRenamePhase (destructureD L "stringifyId" (.vBool true)) (getProp L "rename")
          (deversionPhase (destructureD L "showVersion" (.vBool false)) [.vObj fs]) with
      | (docs3, some e) => .continueError e (rebuild false docs3)
      | (docs3, none) => .continueSuccess (rebuild false docs3) := by
  unfold mongooseLeanExtension
  rw [hL, htr]
  simp only [show truthy (Value.vObj fs) = true from rfl, Bool.not_true, Bool.or_self,
    Bool.false_eq_true, if_false,
    show isArrayVal (Value.vObj fs) = false from rfl,
    show toDocs (Value.vObj fs) = [Value.vObj fs] from rfl, hkeys]

/-! ### Claim theorems -/

/-- C3: when no options were attached, or no lean mode was requested, or
the result is null/absent, the post hook signals continue-success with the
result delivered field-for-field identical (zero mutation). -/
theorem C3_gate_noop (options result : Value)
    (h : options = .vUndef ∨ truthy (getProp options "lean") = false
      ∨ isNullish result = true) :
    mongooseLeanExtension options result = .continueSuccess result := by
  have hcond : (!truthy (getProp options "lean") || !truthy result) = true := by
    rcases h with h | h | h
    · subst h
      rfl
    · rw [h]
      rfl
    · have : truthy result = false := by
        cases result <;> simp_all [isNullish, truthy]
      rw [this]
      simp
  unfold mongooseLeanExtension
  rw [hcond]
  rfl

theorem C3_gate_noop_witness :
    mongooseLeanExtension .vUndef (.vObj [("a", .vInt 1)])
      = .continueSuccess (.vObj [("a", .vInt 1)]) :=
  C3_gate_noop .vUndef (.vObj [("a", .vInt 1)]) (Or.inl rfl)

/-- C7: the path rewriter is a total function (it cannot raise), and every
structural mismatch is a silent no-op: a null or undefined root, a null
intermediate value, a missing field, an already-string terminal field, and
a terminal value without the ObjectId conversion method all leave the
value unchanged. -/
theorem C7_rewriter_safe :
    (∀ path, applyStringifyAtPath .vNull path = .vNull
      ∧ applyStringifyAtPath .vUndef path = .vUndef)
    ∧ (∀ fs key rest, lookupField fs key = some .vNull →
        recurse (.vObj fs) (key :: rest) = .vObj fs)
    ∧ (∀ fs key rest, lookupField fs key = none →
        recurse (.vObj fs) (key :: rest) = .vObj fs)
    ∧ (∀ fs key str, lookupField fs key = some (.vStr str) →
        recurse (.vObj fs) [key] = .vObj fs)
    ∧ (∀ fs key w, lookupField fs key = some w → hasToHexString w = false →
        recurse (.vObj fs) [key] = .vObj fs) := by
  refine ⟨?_, ?_, ?_, ?_, ?_⟩
  · intro path
    exact ⟨recurse_vNull _, recurse_vUndef _⟩
  · intro fs key rest h
    match rest with
    | [] =>
        rw [recurse_obj_terminal_eq, stringifyOidField_of_not_oid fs key _ h rfl]
    | p :: ps =>
        rw [recurse_obj_descend, recurseField_lookup_some fs key (p :: ps) _ h,
          recurse_vNull, setFields_same fs key _ h]
  · intro fs key rest h
    match rest with
    | [] => rw [recurse_obj_terminal_eq, stringifyOidField_of_none fs key h]
    | p :: ps => rw [recurse_obj_descend, recurseField_lookup_none fs key (p :: ps) h]
  · intro fs key str h
    rw [recurse_obj_terminal_eq, stringifyOidField_of_not_oid fs key _ h rfl]
  · intro fs key w h hw
    rw [recurse_obj_terminal_eq, stringifyOidField_of_not_oid fs key w h hw]

theorem C7_rewriter_safe_witness :
    applyStringifyAtPath .vNull "a.b" = .vNull
    ∧ recurse (.vObj [("x", .vStr "s")]) ["x"] = .vObj [("x", .vStr "s")]
    ∧ recurse (.vObj [("x", .vNull)]) ["x", "y"] = .vObj [("x", .vNull)] :=
  ⟨(C7_rewriter_safe.1 "a.b").1,
    C7_rewriter_safe.2.2.2.1 [("x", .vStr "s")] "x" "s" rfl,
    C7_rewriter_safe.2.1 [("x", .vNull)] "x" ["y"] rfl⟩

/-- C8: applying the path rewriter for two path expressions in either
order yields the same record: the rewriter only replaces ObjectId leaves
by their hex strings in place, so distinct paths are independent and
overlapping paths become inert after the first rewrite. -/
theorem C8_paths_commute (record : Value) (p q : String) :
    applyStringifyAtPath (applyStringifyAtPath record p) q
      = applyStringifyAtPath (applyStringifyAtPath record q) p := by
  unfold applyStringifyAtPath
  exact recurse_comm record (jsSplitDot p) (jsSplitDot q)

theorem stringifyOidField_idem (fs : List (String × Value)) (k : String) :
    stringifyOidField (stringifyOidField fs k) k = stringifyOidField fs k := by
  rcases h : lookupField fs k with _ | v
  · rw [stringifyOidField_of_none fs k h, stringifyOidField_of_none fs k h]
  · cases v with
    | vOid hex =>
        rw [stringifyOidField_of_oid fs k hex h,
          stringifyOidField_of_not_oid (setFields fs k (.vStr hex)) k (.vStr hex)
            (lookup_setFields_self fs k (.vStr hex)) rfl]
    | vUndef => rw [stringifyOidField_of_not_oid fs k _ h rfl,
        stringifyOidField_of_not_oid fs k _ h rfl]
    | vNull => rw [stringifyOidField_of_not_oid fs k _ h rfl,
        stringifyOidField_of_not_oid fs k _ h rfl]
    | vBool b => rw [stringifyOidField_of_not_oid fs k _ h rfl,
        stringifyOidField_of_not_oid fs k _ h rfl]
    | vInt n => rw [stringifyOidField_of_not_oid fs k _ h rfl,
        stringifyOidField_of_not_oid fs k _ h rfl]
    | vStr str => rw [stringifyOidField_of_not_oid fs k _ h rfl,
        stringifyOidField_of_not_oid fs k _ h rfl]
    | vObj gs => rw [stringifyOidField_of_not_oid fs k _ h rfl,
        stringifyOidField_of_not_oid fs k _ h rfl]
    | vArr xs => rw [stringifyOidField_of_not_oid fs k _ h rfl,
        stringifyOidField_of_not_oid fs k _ h rfl]

/-- C9: identifier stringification is idempotent, both for the primary
`_id` substep of the post hook (an already-string `_id` fails the
instance-of check and is untouched) and for the nested path rewriter
(already-string terminal fields are untouched on a second pass). -/
theorem C9_stringify_idempotent :
    (∀ record, idStringifyRecord (idStringifyRecord record) = idStringifyRecord record)
    ∧ (∀ record path, applyStringifyAtPath (applyStringifyAtPath record path) path
        = applyStringifyAtPath record path) := by
  constructor
  · intro record
    cases record with
    | vObj fs => rw [idStringifyRecord_obj, idStringifyRecord_obj, stringifyOidField_idem]
    | vUndef => rfl
    | vNull => rfl
    | vBool b => rfl
    | vInt n => rfl
    | vStr str => rfl
    | vOid hex => rfl
    | vArr xs => rfl
  · intro record path
    unfold applyStringifyAtPath
    exact recurse_idem record (jsSplitDot path)

/-- C5: with `showVersion` falsy the deversion step removes the version
field from a record exactly when it is present with an integer value,
leaves all other fields untouched, and leaves a record with an absent or
non-integer version field unchanged; with `showVersion` truthy the step is
skipped entirely and with it falsy it runs on every record of the
normalized sequence. -/
theorem C5_deversion_selective (fs : List (String × Value)) :
    ((∃ n, lookupField fs "__v" = some (.vInt n)) →
        deversionRecord (.vObj fs) = .vObj (deleteFields fs "__v")
        ∧ lookupField (deleteFields fs "__v") "__v" = none
        ∧ ∀ k, k ≠ "__v" → lookupField (deleteFields fs "__v") k = lookupField fs k)
    ∧ (isIntegerNumber (getProp (.vObj fs) "__v") = false →
        deversionRecord (.vObj fs) = .vObj fs)
    ∧ (∀ docs, deversionPhase (.vBool true) docs = docs)
    ∧ (∀ docs, deversionPhase (.vBool false) docs = docs.map deversionRecord) := by
  refine ⟨?_, ?_, ?_, ?_⟩
  · rintro ⟨n, hn⟩
    exact ⟨deversionRecord_int fs n hn, lookup_deleteFields_self fs "__v",
      fun k hk => lookup_deleteFields_ne fs "__v" k hk⟩
  · intro h
    exact deversionRecord_not_int _ h
  · intro docs
    rfl
  · intro docs
    rfl

theorem C5_deversion_selective_witness :
    deversionRecord (.vObj [("__v", .vInt 0), ("a", .vStr "x")]) = .vObj [("a", .vStr "x")]
    ∧ deversionRecord (.vObj [("__v", .vStr "x")]) = .vObj [("__v", .vStr "x")] := by
  constructor
  · have h := (C5_deversion_selective [("__v", .vInt 0), ("a", .vStr "x")]).1 ⟨0, rfl⟩
    rw [h.1]
    rfl
  · exact (C5_deversion_selective [("__v", .vStr "x")]).2.1 rfl

/-- C6: the hook signals exactly one of the two continuation outcomes for
every input, and an exception thrown while applying the rewrites (here a
non-string entry of `stringifyKeys`, whose `path.split` call throws) is
caught by the surrounding try/catch and surfaced as continue-with-error,
with the mutations already made (the first document's rewritten path)
retained and not rolled back. -/
theorem C6_exactly_one_outcome :
    (∀ options result,
      (∃ d, mongooseLeanExtension options result = .continueSuccess d)
      ∨ (∃ e g, mongooseLeanExtension options result = .continueError e g))
    ∧ mongooseLeanExtension
        (.vObj [("lean", .vObj [("stringifyKeys", .vArr [.vStr "a", .vInt 5]),
          ("stringifyId", .vBool false)])])
        (.vArr [.vObj [("a", .vOid "11")], .vObj [("a", .vOid "22")]])
        = .continueError "TypeError: path.split is not a function"
            (.vArr [.vObj [("a", .vStr "11")], .vObj [("a", .vOid "22")]]) := by
  constructor
  · intro options result
    cases h : mongooseLeanExtension options result with
    | continueSuccess d => exact Or.inl ⟨d, rfl⟩
    | continueError e g => exact Or.inr ⟨e, g, rfl⟩
  · rfl

/-- The common rename pipeline: for a lean options object with no
`stringifyKeys`, default `showVersion`, and a non-empty string `rename`,
a single object record flows through deversion and then the
stringify-or-rename loop. -/
theorem rename_pipeline (fs : List (String × Value)) (nm : String) (L : Value)
    (hne : nm ≠ "")
    (htr : truthy L = true)
    (hkeys : destructureD L "stringifyKeys" (.vArr []) = .vArr [])
    (hsv : destructureD L "showVersion" (.vBool false) = .vBool false)
    (hrn : getProp L "rename" = .vStr nm) :
    ∃ gs, mongooseLeanExtension (.vObj [("lean", L)]) (.vObj fs)
        = .continueSuccess (.vObj (deleteFields (setFields (stringifyOidField gs "_id") nm
            ((lookupField (stringifyOidField gs "_id") "_id").getD .vUndef)) "_id"))
      ∧ deversionRecord (.vObj fs) = .vObj gs
      ∧ (∀ k, k ≠ "__v" → lookupField gs k = lookupField fs k) := by
  obtain ⟨gs, hgs, hpres⟩ := deversionRecord_obj_shape fs
  refine ⟨gs, ?_, hgs, hpres⟩
  have hL : getProp (Value.vObj [("lean", L)]) "lean" = L := rfl
  rw [mle_single_noKeys (.vObj [("lean", L)]) fs L hL htr
    (by rw [hkeys]; exact stringifyPhase_empty [Value.vObj fs])]
  rw [hsv]
  have hdev : deversionPhase (.vBool false) [Value.vObj fs] = [Value.vObj gs] := by
    rw [show deversionPhase (Value.vBool false) [Value.vObj fs]
      = [deversionRecord (Value.vObj fs)] from rfl, hgs]
  rw [hdev, hrn]
  have hphase : idRenamePhase (destructureD L "stringifyId" (.vBool true)) (.vStr nm)
      [Value.vObj gs]
      = ([Value.vObj (deleteFields (setFields (stringifyOidField gs "_id") nm
          ((lookupField (stringifyOidField gs "_id") "_id").getD .vUndef)) "_id")], none) := by
    unfold idRenamePhase
    rw [truthy_vStr nm hne, Bool.or_true]
    rw [show (if (true = true) then forEachMut (idRenameRecord (Value.vStr nm)) [Value.vObj gs]
      else ([Value.vObj gs], none)) = forEachMut (idRenameRecord (Value.vStr nm)) [Value.vObj gs]
      from rfl]
    rw [show forEachMut (idRenameRecord (Value.vStr nm)) [Value.vObj gs]
      = (match idRenameRecord (Value.vStr nm) (Value.vObj gs) with
        | (d1, none) => (d1 :: [], none)
        | (d1, some e) => (d1 :: [], some e)) from by
        unfold forEachMut
        rcases idRenameRecord (Value.vStr nm) (Value.vObj gs) with ⟨d1, _ | e⟩ <;> rfl]
    rw [idRenameRecord_obj_str gs nm hne]
  rw [hphase]
  rfl

/-- C10 (amended): for a record processed with `rename` set to a non-empty
string other than `"_id"`, the destination field is written and `_id`
deleted unconditionally: even when the record has no `_id` field, the
delivered record carries the rename key with value `undefined` and the
hook signals success.  (With `rename = "_id"` the unconditional delete
removes the just-written destination, so no key is created.) -/
theorem C10_rename_unconditional (fs : List (String × Value)) (nm : String)
    (hid : lookupField fs "_id" = none) (hne : nm ≠ "") (hni : nm ≠ "_id") :
    ∃ fs2, mongooseLeanExtension (.vObj [("lean", .vObj [("rename", .vStr nm)])]) (.vObj fs)
        = .continueSuccess (.vObj fs2)
      ∧ lookupField fs2 nm = some .vUndef ∧ lookupField fs2 "_id" = none := by
  obtain ⟨gs, hrun, hgs, hpres⟩ := rename_pipeline fs nm (.vObj [("rename", .vStr nm)])
    hne rfl rfl rfl rfl
  have hgid : lookupField gs "_id" = none := by
    rw [hpres "_id" (by decide)]
    exact hid
  rw [stringifyOidField_of_none gs "_id" hgid] at hrun
  rw [hgid] at hrun
  refine ⟨deleteFields (setFields gs nm (Option.getD none .vUndef)) "_id", hrun, ?_, ?_⟩
  · rw [lookup_deleteFields_ne _ "_id" nm hni, lookup_setFields_self]
    rfl
  · exact lookup_deleteFields_self _ "_id"

theorem C10_rename_unconditional_witness :
    ∃ fs2, mongooseLeanExtension
        (.vObj [("lean", .vObj [("rename", .vStr "uid")])]) (.vObj [("name", .vStr "x")])
        = .continueSuccess (.vObj fs2)
      ∧ lookupField fs2 "uid" = some .vUndef ∧ lookupField fs2 "_id" = none :=
  C10_rename_unconditional [("name", .vStr "x")] "uid" rfl (by decide) (by decide)

/-- C10 counterexample to the claim as stated: with `rename = "_id"` (a
non-empty string) and a record with no `_id` field, the hook writes
`record["_id"] = undefined` and then deletes `_id`, so the delivered
record carries no field named by `rename` at all. -/
theorem C10_rename_unconditional_cex :
    mongooseLeanExtension (.vObj [("lean", .vObj [("rename", .vStr "_id")])]) (.vObj [])
      = .continueSuccess (.vObj [])
    ∧ lookupField ([] : List (String × Value)) "_id" = none :=
  ⟨rfl, rfl⟩

/-- C2 (amended): for a record whose `_id` holds an ObjectId, with
`rename` a non-empty string other than `"_id"`, the delivered record has
no `_id` field and carries the rename field holding the hex string form
(not the raw ObjectId); this holds both when `stringifyId` is left at its
default and when it is explicitly `true`. -/
theorem C2_rename_stringifies (fs : List (String × Value)) (hex nm : String)
    (hid : lookupField fs "_id" = some (.vOid hex)) (hne : nm ≠ "") (hni : nm ≠ "_id") :
    ∀ L ∈ [Value.vObj [("rename", .vStr nm)],
           Value.vObj [("stringifyId", .vBool true), ("rename", .vStr nm)]],
      ∃ fs2, mongooseLeanExtension (.vObj [("lean", L)]) (.vObj fs)
          = .continueSuccess (.vObj fs2)
        ∧ lookupField fs2 "_id" = none ∧ lookupField fs2 nm = some (.vStr hex) := by
  have main : ∀ L : Value, truthy L = true →
      destructureD L "stringifyKeys" (.vArr []) = .vArr [] →
      destructureD L "showVersion" (.vBool false) = .vBool false →
      getProp L "rename" = .vStr nm →
      ∃ fs2, mongooseLeanExtension (.vObj [("lean", L)]) (.vObj fs)
          = .continueSuccess (.vObj fs2)
        ∧ lookupField fs2 "_id" = none ∧ lookupField fs2 nm = some (.vStr hex) := by
    intro L htr hkeys hsv hrn
    obtain ⟨gs, hrun, hgs, hpres⟩ := rename_pipeline fs nm L hne htr hkeys hsv hrn
    have hgid : lookupField gs "_id" = some (.vOid hex) := by
      rw [hpres "_id" (by decide)]
      exact hid
    rw [stringifyOidField_of_oid gs "_id" hex hgid] at hrun
    rw [lookup_setFields_self gs "_id" (.vStr hex)] at hrun
    refine ⟨deleteFields (setFields (setFields gs "_id" (.vStr hex)) nm
      (Option.getD (some (.vStr hex)) .vUndef)) "_id", hrun, ?_, ?_⟩
    · exact lookup_deleteFields_self _ "_id"
    · rw [lookup_deleteFields_ne _ "_id" nm hni, lookup_setFields_self]
      rfl
  intro L hL
  rcases List.mem_cons.mp hL with h1 | h1
  · subst h1
    exact main _ rfl rfl rfl rfl
  · rcases List.mem_cons.mp h1 with h2 | h2
    · subst h2
      exact main _ rfl rfl rfl rfl
    · exact absurd h2 (List.not_mem_nil L)

theorem C2_rename_stringifies_witness :
    ∃ fs2, mongooseLeanExtension
        (.vObj [("lean", .vObj [("rename", .vStr "uid")])]) (.vObj [("_id", .vOid "aa")])
        = .continueSuccess (.vObj fs2)
      ∧ lookupField fs2 "_id" = none ∧ lookupField fs2 "uid" = some (.vStr "aa") :=
  C2_rename_stringifies [("_id", .vOid "aa")] "aa" "uid" rfl (by decide) (by decide)
    (Value.vObj [("rename", .vStr "uid")]) (by simp)

/-- C2 counterexample to the claim as stated: with `rename = "_id"` (a
non-empty string) the loop writes `record["_id"]` and then deletes `_id`,
so the delivered record is empty: it has no field named by `rename`
holding the identifier's string form. -/
theorem C2_rename_stringifies_cex :
    mongooseLeanExtension (.vObj [("lean", .vObj [("rename", .vStr "_id")])])
      (.vObj [("_id", .vOid "aa")]) = .continueSuccess (.vObj [])
    ∧ lookupField ([] : List (String × Value)) "_id" = none :=
  ⟨rfl, rfl⟩

/-- C1: rewriting path "arrayField.idField" on a record whose
`arrayField` holds an array of N subdocuments converts exactly the N
terminal identifier fields (each ObjectId-valued `idField` becomes its hex
string, with every other subdocument field untouched) and leaves every
other field of the record untouched, for any N (the list `subs` is
arbitrary, covering N = 0, 1 and many); and when traversal meets an array
before the final segment the same remaining segment list is applied to
every element without being consumed (fan-out). -/
theorem C1_fanout (fs : List (String × Value)) (subs : List (List (String × Value)))
    (harr : lookupField fs "arrayField" = some (.vArr (subs.map Value.vObj))) :
    applyStringifyAtPath (.vObj fs) "arrayField.idField"
      = .vObj (setFields fs "arrayField"
          (.vArr (subs.map (fun gs => Value.vObj (stringifyOidField gs "idField")))))
    ∧ (∀ gs ∈ subs, ∀ hex, lookupField gs "idField" = some (.vOid hex) →
        lookupField (stringifyOidField gs "idField") "idField" = some (.vStr hex))
    ∧ (∀ gs ∈ subs, ∀ k, k ≠ "idField" →
        lookupField (stringifyOidField gs "idField") k = lookupField gs k)
    ∧ (∀ k, k ≠ "arrayField" →
        lookupField (setFields fs "arrayField"
          (.vArr (subs.map (fun gs => Value.vObj (stringifyOidField gs "idField"))))) k
          = lookupField fs k)
    ∧ (∀ items parts, recurse (.vArr items) parts
        = .vArr (items.map (fun it => recurse it parts))) := by
  refine ⟨?_, ?_, ?_, ?_, ?_⟩
  · unfold applyStringifyAtPath
    rw [show jsSplitDot "arrayField.idField" = ["arrayField", "idField"] from rfl,
      recurse_obj_descend, recurseField_lookup_some fs "arrayField" ["idField"] _ harr,
      recurse_arr, List.map_map]
    have : (fun it => recurse it ["idField"]) ∘ Value.vObj
        = fun gs => Value.vObj (stringifyOidField gs "idField") := by
      funext gs
      exact recurse_obj_terminal_eq gs "idField"
    rw [this]
  · intro gs _ hex hid
    rw [stringifyOidField_of_oid gs "idField" hex hid, lookup_setFields_self]
  · intro gs _ k hk
    exact lookup_stringifyOidField_ne gs "idField" k hk
  · intro k hk
    exact lookup_setFields_ne fs "arrayField" k _ hk
  · intro items parts
    exact recurse_arr items parts

theorem C1_fanout_witness :
    applyStringifyAtPath
        (.vObj [("arrayField", .vArr [.vObj [("idField", .vOid "bb"), ("u", .vStr "t")],
          .vObj [("idField", .vOid "cc")]]), ("x", .vInt 1)]) "arrayField.idField"
      = .vObj [("arrayField", .vArr [.vObj [("idField", .vStr "bb"), ("u", .vStr "t")],
          .vObj [("idField", .vStr "cc")]]), ("x", .vInt 1)]
    ∧ applyStringifyAtPath (.vObj [("arrayField", .vArr []), ("x", .vInt 1)])
        "arrayField.idField"
      = .vObj [("arrayField", .vArr []), ("x", .vInt 1)] := by
  constructor
  · rw [(C1_fanout [("arrayField", .vArr [.vObj [("idField", .vOid "bb"), ("u", .vStr "t")],
      .vObj [("idField", .vOid "cc")]]), ("x", .vInt 1)]
      [[("idField", .vOid "bb"), ("u", .vStr "t")], [("idField", .vOid "cc")]] rfl).1]
    rfl
  · rw [(C1_fanout [("arrayField", .vArr []), ("x", .vInt 1)] [] rfl).1]
    rfl

/-- The per-record effect of step 3 (nested stringification). -/
def stringifyStage (lean : Value) (r : Value) : Value :=
  if isArrayVal (destructureD lean "stringifyKeys" (.vArr []))
      && !(arrElems (destructureD lean "stringifyKeys" (.vArr []))).isEmpty
  then (applyPathsTo r (arrElems (destructureD lean "stringifyKeys" (.vArr [])))).1 else r

/-- The per-record effect of step 4 (version removal). -/
def deversionStage (lean : Value) (r : Value) : Value :=
  if truthy (destructureD lean "showVersion" (.vBool false)) then r else deversionRecord r

/-- The per-record composite of the three rewrite phases, driven by the
same option fields the hook destructures.  On a globally successful run
the hook processes every record of the normalized sequence independently
by this function. -/
def processRecord (lean : Value) (r : Value) : Value :=
  if truthy (destructureD lean "stringifyId" (.vBool true))
      || truthy (getProp lean "rename")
    then (idRenameRecord (getProp lean "rename") (deversionStage lean (stringifyStage lean r))).1
    else deversionStage lean (stringifyStage lean r)

theorem stringifyPhase_none_inv (keys : Value) (docs docs1 : List Value)
    (h : stringifyPhase keys docs = (docs1, none)) :
    docs1 = docs.map (fun r => if isArrayVal keys && !(arrElems keys).isEmpty
      then (applyPathsTo r (arrElems keys)).1 else r) := by
  unfold stringifyPhase at h
  by_cases hc : (isArrayVal keys && !(arrElems keys).isEmpty) = true
  · rw [if_pos hc] at h
    obtain ⟨hmap, _⟩ := forEachMut_none_inv _ docs docs1 h
    rw [hmap]
    apply List.map_congr_left
    intro r _
    rw [if_pos hc]
  · rw [if_neg hc] at h
    simp only [Prod.mk.injEq] at h
    rw [← h.1]
    have : docs.map (fun r => if isArrayVal keys && !(arrElems keys).isEmpty
        then (applyPathsTo r (arrElems keys)).1 else r) = docs.map (fun r => r) := by
      apply List.map_congr_left
      intro r _
      rw [if_neg hc]
    rw [this, List.map_id']

theorem deversionPhase_eq_map (sv : Value) (docs : List Value) :
    deversionPhase sv docs
      = docs.map (fun r => if truthy sv then r else deversionRecord r) := by
  unfold deversionPhase
  by_cases h : truthy sv = true
  · rw [if_pos h]
    have : docs.map (fun r => if truthy sv then r else deversionRecord r)
        = docs.map (fun r => r) := by
      apply List.map_congr_left
      intro r _
      rw [if_pos h]
    rw [this, List.map_id']
  · rw [if_neg h]
    apply List.map_congr_left
    intro r _
    rw [if_neg h]

theorem idRenamePhase_none_inv (sid rn : Value) (docs docs3 : List Value)
    (h : idRenamePhase sid rn docs = (docs3, none)) :
    docs3 = docs.map (fun r => if truthy sid || truthy rn
      then (idRenameRecord rn r).1 else r) := by
  unfold idRenamePhase at h
  by_cases hc : (truthy sid || truthy rn) = true
  · rw [if_pos hc] at h
    obtain ⟨hmap, _⟩ := forEachMut_none_inv _ docs docs3 h
    rw [hmap]
    apply List.map_congr_left
    intro r _
    rw [if_pos hc]
  · rw [if_neg hc] at h
    simp only [Prod.mk.injEq] at h
    rw [← h.1]
    have : docs.map (fun r => if truthy sid || truthy rn
        then (idRenameRecord rn r).1 else r) = docs.map (fun r => r) := by
      apply List.map_congr_left
      intro r _
      rw [if_neg hc]
    rw [this, List.map_id']

theorem applyPathsTo_obj_fst_shape (fs : List (String × Value)) (paths : List Value) :
    ∃ gs, (applyPathsTo (.vObj fs) paths).1 = .vObj gs := by
  induction paths generalizing fs with
  | nil => exact ⟨fs, rfl⟩
  | cons p rest ih =>
      cases p with
      | vStr str =>
          obtain ⟨gs1, hg1⟩ := recurse_obj_shape fs (jsSplitDot str)
          have hstep : applyPathDyn (.vObj fs) (.vStr str) = (.vObj gs1, none) := by
            have h0 : applyPathDyn (.vObj fs) (.vStr str)
                = (recurse (.vObj fs) (jsSplitDot str), none) := rfl
            rw [h0, hg1]
          have hred : applyPathsTo (.vObj fs) (.vStr str :: rest)
              = applyPathsTo (.vObj gs1) rest := by
            have h0 : applyPathsTo (.vObj fs) (.vStr str :: rest)
                = (match applyPathDyn (.vObj fs) (.vStr str) with
                  | (d, none) => applyPathsTo d rest
                  | (d, some e) => (d, some e)) := rfl
            rw [h0, hstep]
          rw [hred]
          exact ih gs1
      | vUndef => exact ⟨fs, rfl⟩
      | vNull => exact ⟨fs, rfl⟩
      | vBool b => exact ⟨fs, rfl⟩
      | vInt n => exact ⟨fs, rfl⟩
      | vOid hex => exact ⟨fs, rfl⟩
      | vObj gs => exact ⟨fs, rfl⟩
      | vArr xs => exact ⟨fs, rfl⟩

theorem idRenameRecord_obj_fst_shape (rn : Value) (fs : List (String × Value)) :
    ∃ gs, (idRenameRecord rn (.vObj fs)).1 = .vObj gs := by
  by_cases h : truthy rn = true
  · refine ⟨deleteFields (setFields (stringifyOidField fs "_id") (jsToString rn)
      ((lookupField (stringifyOidField fs "_id") "_id").getD .vUndef)) "_id", ?_⟩
    simp [idRenameRecord, idStringifyRecord_obj, h, isNullish, setProp, deleteProp, getProp]
  · rw [Bool.not_eq_true] at h
    refine ⟨stringifyOidField fs "_id", ?_⟩
    simp [idRenameRecord, idStringifyRecord_obj, h]

theorem stringifyStage_obj_shape (L : Value) (fs : List (String × Value)) :
    ∃ gs, stringifyStage L (.vObj fs) = .vObj gs := by
  unfold stringifyStage
  by_cases h : (isArrayVal (destructureD L "stringifyKeys" (.vArr []))
      && !(arrElems (destructureD L "stringifyKeys" (.vArr []))).isEmpty) = true
  · rw [if_pos h]
    exact applyPathsTo_obj_fst_shape fs _
  · rw [if_neg h]
    exact ⟨fs, rfl⟩

theorem deversionStage_obj_shape (L : Value) (fs : List (String × Value)) :
    ∃ gs, deversionStage L (.vObj fs) = .vObj gs := by
  unfold deversionStage
  by_cases h : truthy (destructureD L "showVersion" (.vBool false)) = true
  · rw [if_pos h]
    exact ⟨fs, rfl⟩
  · rw [if_neg h]
    obtain ⟨g2, hgg, _⟩ := deversionRecord_obj_shape fs
    exact ⟨g2, hgg⟩

theorem processRecord_obj_shape (L : Value) (fs : List (String × Value)) :
    ∃ gs, processRecord L (.vObj fs) = .vObj gs := by
  obtain ⟨g1, hg1⟩ := stringifyStage_obj_shape L fs
  obtain ⟨g2, hg2⟩ := deversionStage_obj_shape L g1
  unfold processRecord
  rw [hg1, hg2]
  by_cases h : (truthy (destructureD L "stringifyId" (.vBool true))
      || truthy (getProp L "rename")) = true
  · rw [if_pos h]
    exact idRenameRecord_obj_fst_shape (getProp L "rename") g2
  · rw [if_neg h]
    exact ⟨g2, rfl⟩

/-- On the processed path (gate open), a successful hook run delivers the
rebuilt sequence of per-record results. -/
theorem mle_processed_success (options result d : Value)
    (hgate : (!truthy (getProp options "lean") || !truthy result) = false)
    (h : mongooseLeanExtension options result = .continueSuccess d) :
    d = rebuild (isArrayVal result)
      ((toDocs result).map (processRecord (getProp options "lean"))) := by
  unfold mongooseLeanExtension at h
  rw [hgate] at h
  simp only [Bool.false_eq_true, if_false] at h
  rcases hs : stringifyPhase
      (destructureD (getProp options "lean") "stringifyKeys" (.vArr []))
      (toDocs result) with ⟨docs1, e1⟩
  rw [hs] at h
  cases e1 with
  | some e => exact Outcome.noConfusion h
  | none =>
      replace h : (match idRenamePhase
          (destructureD (getProp options "lean") "stringifyId" (.vBool true))
          (getProp (getProp options "lean") "rename")
          (deversionPhase (destructureD (getProp options "lean") "showVersion" (.vBool false))
            docs1) with
        | (docs3, some e) => Outcome.continueError e (rebuild (isArrayVal result) docs3)
        | (docs3, none) => Outcome.continueSuccess (rebuild (isArrayVal result) docs3))
          = Outcome.continueSuccess d := h
      rcases hir : idRenamePhase
          (destructureD (getProp options "lean") "stringifyId" (.vBool true))
          (getProp (getProp options "lean") "rename")
          (deversionPhase (destructureD (getProp options "lean") "showVersion" (.vBool false))
            docs1) with ⟨docs3, e3⟩
      rw [hir] at h
      cases e3 with
      | some e => exact Outcome.noConfusion h
      | none =>
          have hd : d = rebuild (isArrayVal result) docs3 := by
            cases h
            rfl
          rw [hd]
          congr 1
          have h1 := stringifyPhase_none_inv _ _ _ hs
          have h3 := idRenamePhase_none_inv _ _ _ _ hir
          rw [h3, deversionPhase_eq_map, h1, List.map_map, List.map_map]
          apply List.map_congr_left
          intro r _
          simp only [Function.comp]
          unfold processRecord deversionStage stringifyStage
          rfl

/-- C4: a singular (findOne-style) record result is delivered to the
caller as a singular record — a plain object, never wrapped in a sequence,
even though the hook normalizes it into a one-element array internally —
and a sequence result is delivered as a sequence of the same length whose
elements are, in order, derived from the corresponding input records (the
gate no-op leaves the sequence identical; the processed path maps the
per-record pipeline over it in order). -/
theorem C4_shape_preserved (options : Value) :
    (∀ fs d, mongooseLeanExtension options (.vObj fs) = .continueSuccess d →
      (∃ gs, d = .vObj gs)
      ∧ (d = .vObj fs ∨ d = processRecord (getProp options "lean") (.vObj fs)))
    ∧ (∀ xs d, mongooseLeanExtension options (.vArr xs) = .continueSuccess d →
        ∃ ys, d = .vArr ys ∧ ys.length = xs.length
          ∧ (ys = xs ∨ ys = xs.map (processRecord (getProp options "lean")))) := by
  constructor
  · intro fs d h
    by_cases hg : (!truthy (getProp options "lean") || !truthy (Value.vObj fs)) = true
    · have hgate : mongooseLeanExtension options (.vObj fs)
          = .continueSuccess (.vObj fs) := by
        unfold mongooseLeanExtension
        rw [hg]
        rfl
      have hd := hgate.symm.trans h
      injection hd with hd1
      exact ⟨⟨fs, hd1.symm⟩, Or.inl hd1.symm⟩
    · rw [Bool.not_eq_true] at hg
      have hd := mle_processed_success options (.vObj fs) d hg h
      rw [show isArrayVal (Value.vObj fs) = false from rfl,
        show toDocs (Value.vObj fs) = [Value.vObj fs] from rfl,
        List.map_cons, List.map_nil, rebuild_single] at hd
      obtain ⟨gs, hgs⟩ := processRecord_obj_shape (getProp options "lean") fs
      exact ⟨⟨gs, by rw [hd, hgs]⟩, Or.inr hd⟩
  · intro xs d h
    by_cases hg : (!truthy (getProp options "lean") || !truthy (Value.vArr xs)) = true
    · have hgate : mongooseLeanExtension options (.vArr xs)
          = .continueSuccess (.vArr xs) := by
        unfold mongooseLeanExtension
        rw [hg]
        rfl
      have hd := hgate.symm.trans h
      injection hd with hd1
      exact ⟨xs, hd1.symm, rfl, Or.inl rfl⟩
    · rw [Bool.not_eq_true] at hg
      have hd := mle_processed_success options (.vArr xs) d hg h
      rw [show isArrayVal (Value.vArr xs) = true from rfl,
        show toDocs (Value.vArr xs) = xs from rfl,
        show rebuild true (xs.map (processRecord (getProp options "lean")))
          = .vArr (xs.map (processRecord (getProp options "lean"))) from rfl] at hd
      exact ⟨xs.map (processRecord (getProp options "lean")), hd,
        List.length_map xs _, Or.inr rfl⟩

theorem C4_shape_preserved_witness :
    ((∃ gs, (Value.vObj [("n", Value.vInt 1)] : Value) = Value.vObj gs)
      ∧ ((Value.vObj [("n", Value.vInt 1)] : Value) = Value.vObj [("n", Value.vInt 1)]
        ∨ (Value.vObj [("n", Value.vInt 1)] : Value)
          = processRecord (getProp (Value.vObj [("lean", Value.vBool true)]) "lean")
              (Value.vObj [("n", Value.vInt 1)]))) :=
  (C4_shape_preserved (Value.vObj [("lean", Value.vBool true)])).1
    [("n", Value.vInt 1)] (Value.vObj [("n", Value.vInt 1)]) rfl

end MLE
